import Mathlib

/-!
Verification of the BB84 key-exchange simulation and bit-codec helpers of
the QuantumLab repository (scripts/bb84_demo.py, scripts/quantum_rng.py,
scripts/quantum_password_demo.py, scripts/grover_vs_classical_demo.py).

Randomness and the quantum simulator are injected: the random bit/basis
draws become explicit input lists, the simulator's one-shot sample for a
non-deterministic circuit becomes an injected coin stream, and
`random.sample` becomes an injected sampling function constrained by the
contract `SampleOK`.  Single-qubit circuits built from X and H gates are
given exact semantics over the ring ℚ[√2] so that the Born-rule
distribution of each round's circuit is computed exactly.
-/

/-- Elements `a + b·√2` of the ring ℚ[√2]; amplitudes of single-qubit
states reachable from |0⟩ by X and H gates live here. -/
structure Q2 where
  a : ℚ
  b : ℚ
deriving DecidableEq, Repr

namespace Q2

def ofRat (q : ℚ) : Q2 := ⟨q, 0⟩

def zero : Q2 := ⟨0, 0⟩

def add (x y : Q2) : Q2 := ⟨x.a + y.a, x.b + y.b⟩

def sub (x y : Q2) : Q2 := ⟨x.a - y.a, x.b - y.b⟩

/-- `(a + b√2)(c + d√2) = (ac + 2bd) + (ad + bc)√2`. -/
def mul (x y : Q2) : Q2 := ⟨x.a * y.a + 2 * x.b * y.b, x.a * y.b + x.b * y.a⟩

/-- `1/√2 = √2/2`. -/
def invSqrtTwo : Q2 := ⟨0, 1/2⟩

end Q2

/-- Single-qubit gates appearing in the BB84 round circuits. -/
inductive Gate
  | X
  | H
deriving DecidableEq, Repr

/-- A single-qubit state as the amplitude pair `(⟨0|ψ⟩, ⟨1|ψ⟩)`. -/
abbrev QState := Q2 × Q2

def applyGate : Gate → QState → QState
  | Gate.X, (c0, c1) => (c1, c0)
  | Gate.H, (c0, c1) =>
      ((c0.add c1).mul Q2.invSqrtTwo, (c0.sub c1).mul Q2.invSqrtTwo)

/-- Run a gate list starting from |0⟩. -/
def runCircuit (gs : List Gate) : QState :=
  gs.foldl (fun s g => applyGate g s) (Q2.ofRat 1, Q2.zero)

/-- The gate sequence of one BB84 round, exactly as `bb84_protocol` builds
the circuit: `X` if Alice's bit is 1, `H` if Alice's basis is X, then `H`
again if Bob measures in the X basis. -/
def roundCircuit (bit aBasis bBasis : Bool) : List Gate :=
  (if bit then [Gate.X] else []) ++
  (if aBasis then [Gate.H] else []) ++
  (if bBasis then [Gate.H] else [])

def roundState (bit aBasis bBasis : Bool) : QState :=
  runCircuit (roundCircuit bit aBasis bBasis)

/-- Born-rule probability of measuring outcome `o` (amplitudes here are
real, so the probability is the squared amplitude). -/
def probOf (s : QState) (o : Bool) : Q2 :=
  if o then s.2.mul s.2 else s.1.mul s.1

/-- One-shot sample of the round circuit, following the execution-oracle
contract: a circuit whose Born distribution puts probability 1 on a single
outcome always returns that outcome; otherwise the sample is the injected
`coin`. -/
def measuredBit (bit aBasis bBasis coin : Bool) : Bool :=
  let s := roundState bit aBasis bBasis
  if probOf s true = Q2.ofRat 1 then true
  else if probOf s false = Q2.ofRat 1 then false
  else coin

/-- `bob_results`: the per-round measurement loop of `bb84_protocol`,
consuming one coin per round. -/
def bobResults : List Bool → List Bool → List Bool → List Bool → List Bool
  | bit :: bits, ab :: abs', bb :: bbs, c :: cs =>
      measuredBit bit ab bb c :: bobResults bits abs' bbs cs
  | _, _, _, _ => []

/-- `key_positions = [i for i, (a, b) in enumerate(zip(alice_bases,
bob_bases)) if a == b]`, with the running index made explicit. -/
def keyPositionsAux : ℕ → List Bool → List Bool → List ℕ
  | i, a :: as', b :: bs =>
      if a = b then i :: keyPositionsAux (i + 1) as' bs
      else keyPositionsAux (i + 1) as' bs
  | _, _, _ => []

def keyPositions (aliceBases bobBases : List Bool) : List ℕ :=
  keyPositionsAux 0 aliceBases bobBases

/-- `[b for idx, b in enumerate(xs) if idx not in reveal_indices]`, with
the running index made explicit. -/
def removeRevealedAux : ℕ → List ℕ → List Bool → List Bool
  | _, _, [] => []
  | i, rev, x :: xs =>
      if i ∈ rev then removeRevealedAux (i + 1) rev xs
      else x :: removeRevealedAux (i + 1) rev xs

def removeRevealed (rev : List ℕ) (xs : List Bool) : List Bool :=
  removeRevealedAux 0 rev xs

/-- The dictionary returned by `bb84_protocol`. -/
structure Session where
  alice_bits : List Bool
  alice_bases : List Bool
  bob_bases : List Bool
  bob_results : List Bool
  sifted_positions : List ℕ
  sifted_alice : List Bool
  sifted_bob : List Bool
  revealed_indices : List ℕ
  revealed_alice : List Bool
  revealed_bob : List Bool
  final_alice_key : List Bool
  final_bob_key : List Bool
deriving Repr, DecidableEq

/-- Contract of `random.sample(range(n), k)` for `k ≤ n`: `k` distinct
indices, all below `n`. -/
def SampleOK (sample : ℕ → ℕ → List ℕ) : Prop :=
  ∀ k n, k ≤ n →
    (sample k n).length = k ∧ (sample k n).Nodup ∧ ∀ i ∈ sample k n, i < n

/-- A concrete sampler satisfying `SampleOK`, used to instantiate
theorems at concrete inputs. -/
def sampleRange (k _n : ℕ) : List ℕ := List.range k

/-- `bb84_protocol`, with the ambient randomness injected: Alice's bits
and bases, Bob's bases, one simulator coin per round, and the
`random.sample` implementation. -/
def bb84_protocol (aliceBits aliceBases bobBases coins : List Bool)
    (sample : ℕ → ℕ → List ℕ) : Session :=
  let bob_results := bobResults aliceBits aliceBases bobBases coins
  let key_positions := keyPositions aliceBases bobBases
  let sifted_alice := key_positions.map (fun i => aliceBits.getD i false)
  let sifted_bob := key_positions.map (fun i => bob_results.getD i false)
  let reveal_k := max 1 (sifted_alice.length / 10)
  let reveal_indices :=
    if 0 < sifted_alice.length then sample reveal_k sifted_alice.length else []
  let revealed_alice := reveal_indices.map (fun i => sifted_alice.getD i false)
  let revealed_bob := reveal_indices.map (fun i => sifted_bob.getD i false)
  let final_alice_key := removeRevealed reveal_indices sifted_alice
  let final_bob_key := removeRevealed reveal_indices sifted_bob
  { alice_bits := aliceBits
    alice_bases := aliceBases
    bob_bases := bobBases
    bob_results := bob_results
    sifted_positions := key_positions
    sifted_alice := sifted_alice
    sifted_bob := sifted_bob
    revealed_indices := reveal_indices
    revealed_alice := revealed_alice
    revealed_bob := revealed_bob
    final_alice_key := final_alice_key
    final_bob_key := final_bob_key }

/-- `f"{x:02x}"`: lowercase hex, zero-padded on the left to width 2. -/
def byteToHex (x : ℕ) : String :=
  let cs := Nat.toDigits 16 x
  String.mk (List.replicate (2 - cs.length) '0' ++ cs)

/-- Render a byte list the way Python's `bytes.hex()` and
`''.join(f"{x:02x}" for x in out)` both do: concatenate the two-digit
hex rendering of each byte in order. -/
def bytesToHex : List ℕ → String
  | [] => ""
  | b :: bs => byteToHex b ++ bytesToHex bs

/-- The accumulator loop shared by `bits_to_hex` (bb84_demo) and
`bits_to_hex_str` (quantum_password_demo): shift each bit into `b`
MSB-first and emit a byte every 8 bits.  Returns the emitted bytes and
the leftover accumulator. -/
def packLoop : ℕ → ℕ → List Bool → List ℕ × ℕ
  | _, b, [] => ([], b)
  | i, b, bit :: rest =>
      let b2 := b * 2 + (if bit then 1 else 0)
      if (i + 1) % 8 = 0 then
        let p := packLoop (i + 1) 0 rest
        (b2 :: p.1, p.2)
      else
        packLoop (i + 1) b2 rest

/-- `bits_to_hex` from scripts/bb84_demo.py: pack MSB-first, shift an
incomplete final byte left by the missing bit count, render as hex. -/
def bits_to_hex (bits : List Bool) : String :=
  let p := packLoop 0 0 bits
  let rem := (8 - bits.length % 8) % 8
  let out := if rem ≠ 0 then p.1 ++ [p.2 * 2 ^ rem] else p.1
  bytesToHex out

/-- `bits_to_hex_str` from scripts/quantum_password_demo.py: right-pad the
bit list with zeros to a multiple of 8 first, then run the same loop. -/
def bits_to_hex_str (bits : List Bool) : String :=
  let pad := (8 - bits.length % 8) % 8
  let padded := bits ++ List.replicate pad false
  bytesToHex (packLoop 0 0 padded).1

/-- MSB-first value of a bit list: `for bit in byte_bits: val = (val << 1) | bit`. -/
def byteOfBits (l : List Bool) : ℕ :=
  l.foldl (fun acc bit => acc * 2 + (if bit then 1 else 0)) 0

/-- Split a list into consecutive groups of 8 (the last group may be
shorter), mirroring `for i in range(0, len(bits), 8): bits[i:i+8]`.
Structural recursion on a fuel argument keeps the definition
kernel-computable; the fuel is the list length, which bounds the number
of groups. -/
def chunks8Aux : ℕ → List Bool → List (List Bool)
  | 0, _ => []
  | _, [] => []
  | fuel + 1, l => l.take 8 :: chunks8Aux fuel (l.drop 8)

def chunks8 (l : List Bool) : List (List Bool) :=
  chunks8Aux l.length l

/-- `bits_to_bytes` from scripts/quantum_rng.py: chunk into groups of 8,
zero-pad a short final group on the right, pack each group MSB-first. -/
def bits_to_bytes (bits : List Bool) : List ℕ :=
  (chunks8 bits).map
    (fun c => byteOfBits (c ++ List.replicate (8 - c.length) false))

/-- Modelled from the spec: `pack_bits_to_bytes` — "Bits consumed 8 at a
time, most-significant-bit first", "If the final group has fewer than 8
bits, it is zero-padded on the right (low-order bits) before packing".
The spec names this function but no script defines it under that name;
this is its direct transcription for comparison with the three source
codecs. -/
def pack_bits_to_bytes_spec (bits : List Bool) : List ℕ :=
  let pad := (8 - bits.length % 8) % 8
  (chunks8 (bits ++ List.replicate pad false)).map byteOfBits

/-- Python exception kinds raised by the Grover entry points. -/
inductive DemoError
  | valueError (msg : String)
  | notImplementedError (msg : String)
deriving DecidableEq, Repr

def MAX_GROVER_QUBITS : ℤ := 4

/-- Validation prefix of `grover_search_demo` in
scripts/quantum_password_demo.py; the quantum run that follows is out of
scope, so success carries the search-space size `N = 2 ** n_qubits`. -/
def grover_search_demo (n_qubits target_index : ℤ) : Except DemoError ℤ :=
  if n_qubits > MAX_GROVER_QUBITS then
    Except.error (DemoError.valueError
      "n_qubits must be <= 4 for this demo.")
  else if ¬(n_qubits = 1 ∨ n_qubits = 2) then
    Except.error (DemoError.notImplementedError
      "This demo supports only 1 or 2 qubits for Grover to keep it simple and safe.")
  else
    let N : ℤ := 2 ^ n_qubits.toNat
    if target_index < 0 ∨ target_index ≥ N then
      Except.error (DemoError.valueError "target_index out of range")
    else
      Except.ok N

def MAX_QUBITS : ℤ := 4

/-- Validation prefix of `run_grover` in
scripts/grover_vs_classical_demo.py. -/
def run_grover (n_qubits : ℤ) : Except DemoError ℤ :=
  if n_qubits < 1 ∨ n_qubits > MAX_QUBITS then
    Except.error (DemoError.valueError
      "n_qubits must be between 1 and 4")
  else
    Except.ok (2 ^ n_qubits.toNat)

/-- `xor_stream` with the running index explicit:
`out[i] = data[i] ^ key[i % len(key)]`. -/
def xorStreamAux (key : List ℕ) : ℕ → List ℕ → List ℕ
  | _, [] => []
  | i, d :: ds =>
      (d ^^^ key.getD (i % key.length) 0) :: xorStreamAux key (i + 1) ds

/-- `xor_stream(data_bytes, key_bytes)` from
scripts/quantum_password_demo.py. -/
def xor_stream (data key : List ℕ) : List ℕ :=
  xorStreamAux key 0 data

/-- `encrypt_with_bits`, injected with the external library calls:
`sha` is `key_from_bits` (SHA-256 of the bit string, hashlib) and `b64e`
is `base64.b64encode`; the plaintext is its UTF-8 byte sequence. -/
def encrypt_with_bits {T : Type} (sha : List Bool → List ℕ)
    (b64e : List ℕ → T) (bits : List Bool) (plaintext : List ℕ) : T :=
  b64e (xor_stream plaintext (sha bits))

/-- `decrypt_with_bits`, with `b64d` injecting `base64.b64decode`. -/
def decrypt_with_bits {T : Type} (sha : List Bool → List ℕ)
    (b64d : T → List ℕ) (bits : List Bool) (ciphertext : T) : List ℕ :=
  xor_stream (b64d ciphertext) (sha bits)

section Helpers

theorem sampleRange_ok : SampleOK sampleRange := by
  intro k n hk
  refine ⟨List.length_range k, List.nodup_range k, ?_⟩
  intro i hi
  exact lt_of_lt_of_le (List.mem_range.mp hi) hk

theorem measuredBit_match (bit basis coin : Bool) :
    measuredBit bit basis basis coin = bit := by
  cases bit <;> cases basis <;> cases coin <;>
    norm_num [measuredBit, roundState, runCircuit, roundCircuit, applyGate,
      probOf, Q2.mul, Q2.add, Q2.sub, Q2.invSqrtTwo, Q2.ofRat, Q2.zero,
      Q2.mk.injEq]

theorem probOf_match (bit basis : Bool) :
    probOf (roundState bit basis basis) bit = Q2.ofRat 1 := by
  cases bit <;> cases basis <;>
    norm_num [roundState, runCircuit, roundCircuit, applyGate,
      probOf, Q2.mul, Q2.add, Q2.sub, Q2.invSqrtTwo, Q2.ofRat, Q2.zero,
      Q2.mk.injEq]

theorem measuredBit_mismatch (bit aBasis bBasis coin : Bool)
    (h : aBasis ≠ bBasis) : measuredBit bit aBasis bBasis coin = coin := by
  cases bit <;> cases aBasis <;> cases bBasis <;> cases coin <;>
    first
    | exact absurd rfl h
    | norm_num [measuredBit, roundState, runCircuit, roundCircuit, applyGate,
        probOf, Q2.mul, Q2.add, Q2.sub, Q2.invSqrtTwo, Q2.ofRat, Q2.zero,
        Q2.mk.injEq]

theorem probOf_mismatch (bit aBasis bBasis o : Bool) (h : aBasis ≠ bBasis) :
    probOf (roundState bit aBasis bBasis) o = Q2.ofRat (1/2) := by
  cases bit <;> cases aBasis <;> cases bBasis <;> cases o <;>
    first
    | exact absurd rfl h
    | norm_num [roundState, runCircuit, roundCircuit, applyGate,
        probOf, Q2.mul, Q2.add, Q2.sub, Q2.invSqrtTwo, Q2.ofRat, Q2.zero,
        Q2.mk.injEq]

theorem bobResults_getD :
    ∀ (bits abs' bbs cs : List Bool) (i : ℕ),
      i < bits.length → i < abs'.length → i < bbs.length → i < cs.length →
      (bobResults bits abs' bbs cs).getD i false =
        measuredBit (bits.getD i false) (abs'.getD i false)
          (bbs.getD i false) (cs.getD i false)
  | [], _, _, _, i => by intro h; exact absurd h (by simp)
  | _ :: _, [], _, _, i => by intro _ h; exact absurd h (by simp)
  | _ :: _, _ :: _, [], _, i => by intro _ _ h; exact absurd h (by simp)
  | _ :: _, _ :: _, _ :: _, [], i => by intro _ _ _ h; exact absurd h (by simp)
  | b :: bits, a :: abs', c :: bbs, d :: cs, 0 => by
      intro _ _ _ _; rfl
  | b :: bits, a :: abs', c :: bbs, d :: cs, i + 1 => by
      intro h1 h2 h3 h4
      simpa [bobResults] using
        bobResults_getD bits abs' bbs cs i (by simpa using h1)
          (by simpa using h2) (by simpa using h3) (by simpa using h4)

end Helpers

section ListLemmas

theorem keyPositionsAux_mem :
    ∀ (a b : List Bool) (i j : ℕ),
      j ∈ keyPositionsAux i a b ↔
        ∃ k, k < min a.length b.length ∧ j = i + k ∧
          a.getD k false = b.getD k false
  | [], b, i, j => by simp [keyPositionsAux]
  | x :: as', [], i, j => by simp [keyPositionsAux]
  | x :: as', y :: bs, i, j => by
      have ih := keyPositionsAux_mem as' bs (i + 1) j
      by_cases hxy : x = y
      · simp only [keyPositionsAux, if_pos hxy, List.mem_cons, ih]
        constructor
        · rintro (rfl | ⟨k, hk, rfl, hget⟩)
          · exact ⟨0, by simp, by simp, by simpa using hxy⟩
          · refine ⟨k + 1, ?_, by omega, by simpa using hget⟩
            simp only [List.length_cons, Nat.lt_min] at hk ⊢
            omega
        · rintro ⟨k, hk, hj, hget⟩
          cases k with
          | zero => exact Or.inl (by omega)
          | succ k' =>
              refine Or.inr ⟨k', ?_, by omega, by simpa using hget⟩
              simp only [List.length_cons, Nat.lt_min] at hk ⊢
              omega
      · simp only [keyPositionsAux, if_neg hxy, ih]
        constructor
        · rintro ⟨k, hk, rfl, hget⟩
          refine ⟨k + 1, ?_, by omega, by simpa using hget⟩
          simp only [List.length_cons, Nat.lt_min] at hk ⊢
          omega
        · rintro ⟨k, hk, hj, hget⟩
          cases k with
          | zero => exact absurd (by simpa using hget) hxy
          | succ k' =>
              refine ⟨k', ?_, by omega, by simpa using hget⟩
              simp only [List.length_cons, Nat.lt_min] at hk ⊢
              omega

theorem keyPositionsAux_le :
    ∀ (a b : List Bool) (i j : ℕ), j ∈ keyPositionsAux i a b → i ≤ j := by
  intro a b i j hj
  obtain ⟨k, _, rfl, _⟩ := (keyPositionsAux_mem a b i j).mp hj
  omega

theorem keyPositionsAux_pairwise :
    ∀ (a b : List Bool) (i : ℕ), (keyPositionsAux i a b).Pairwise (· < ·)
  | [], b, i => by simp [keyPositionsAux]
  | x :: as', [], i => by simp [keyPositionsAux]
  | x :: as', y :: bs, i => by
      have ih := keyPositionsAux_pairwise as' bs (i + 1)
      by_cases hxy : x = y
      · simp only [keyPositionsAux, if_pos hxy]
        refine List.Pairwise.cons ?_ ih
        intro j hj
        have := keyPositionsAux_le as' bs (i + 1) j hj
        omega
      · simpa only [keyPositionsAux, if_neg hxy] using ih

theorem getD_map {α : Type} :
    ∀ (l : List ℕ) (f : ℕ → α) (d : α) (j : ℕ), j < l.length →
      (l.map f).getD j d = f (l.getD j 0)
  | [], _, _, j => by simp
  | x :: xs, f, d, 0 => by simp
  | x :: xs, f, d, j + 1 => by
      intro h
      simpa using getD_map xs f d j (by simpa using h)

theorem removeRevealedAux_sublist :
    ∀ (xs : List Bool) (i : ℕ) (rev : List ℕ),
      (removeRevealedAux i rev xs).Sublist xs
  | [], _, _ => by simp [removeRevealedAux]
  | x :: xs, i, rev => by
      by_cases hx : i ∈ rev
      · simp only [removeRevealedAux, if_pos hx]
        exact (removeRevealedAux_sublist xs (i + 1) rev).cons x
      · simp only [removeRevealedAux, if_neg hx]
        exact (removeRevealedAux_sublist xs (i + 1) rev).cons₂ x

theorem removeRevealedAux_eq :
    ∀ (xs : List Bool) (i : ℕ) (rev : List ℕ),
      removeRevealedAux i rev xs =
        ((List.range' i xs.length).filter (fun j => ¬ j ∈ rev)).map
          (fun j => xs.getD (j - i) false)
  | [], i, rev => by simp [removeRevealedAux]
  | x :: xs, i, rev => by
      have ih := removeRevealedAux_eq xs (i + 1) rev
      have hcongr :
          ((List.range' (i + 1) xs.length).filter (fun j => ¬ j ∈ rev)).map
              (fun j => xs.getD (j - (i + 1)) false) =
            ((List.range' (i + 1) xs.length).filter (fun j => ¬ j ∈ rev)).map
              (fun j => (x :: xs).getD (j - i) false) := by
        refine List.map_congr_left ?_
        intro j hj
        have hj' : i + 1 ≤ j :=
          (List.mem_range'_1.mp (List.mem_of_mem_filter hj)).1
        have : j - i = (j - (i + 1)) + 1 := by omega
        rw [this]
        simp
      by_cases hx : i ∈ rev
      · have hstep : removeRevealedAux i rev (x :: xs) =
            removeRevealedAux (i + 1) rev xs := by
          simp [removeRevealedAux, hx]
        rw [hstep, ih, hcongr, List.length_cons, List.range'_succ,
          List.filter_cons]
        simp [hx]
      · have hstep : removeRevealedAux i rev (x :: xs) =
            x :: removeRevealedAux (i + 1) rev xs := by
          simp [removeRevealedAux, hx]
        rw [hstep, ih, hcongr, List.length_cons, List.range'_succ,
          List.filter_cons]
        simp [hx]

theorem removeRevealed_eq (rev : List ℕ) (xs : List Bool) :
    removeRevealed rev xs =
      ((List.range xs.length).filter (fun j => ¬ j ∈ rev)).map
        (fun j => xs.getD j false) := by
  rw [removeRevealed, removeRevealedAux_eq, List.range_eq_range']
  exact List.map_congr_left (fun j _ => by simp)

theorem length_filter_not_mem (rev : List ℕ) (n : ℕ) (hnd : rev.Nodup)
    (hlt : ∀ x ∈ rev, x < n) :
    ((List.range n).filter (fun j => ¬ j ∈ rev)).length = n - rev.length := by
  have hsplit :
      (List.range n).length =
        ((List.range n).filter (fun j => j ∈ rev)).length +
          ((List.range n).filter (fun j => ¬ (j ∈ rev))).length := by
    have := List.length_eq_length_filter_add (l := List.range n)
      (fun j => decide (j ∈ rev))
    simpa using this
  have hmem : ((List.range n).filter (fun j => j ∈ rev)).length = rev.length := by
    have h1 : List.Subperm rev ((List.range n).filter (fun j => j ∈ rev)) := by
      refine hnd.subperm ?_
      intro x hx
      refine List.mem_filter.mpr ⟨List.mem_range.mpr (hlt x hx), by simpa using hx⟩
    have h2 : List.Subperm ((List.range n).filter (fun j => j ∈ rev)) rev := by
      refine ((List.nodup_range n).filter _).subperm ?_
      intro x hx
      simpa using (List.mem_filter.mp hx).2
    exact le_antisymm h2.length_le h1.length_le
  have := List.length_range n
  omega

end ListLemmas

section ProtocolLemmas

theorem bb84_bob_results_def (aliceBits aliceBases bobBases coins : List Bool)
    (sample : ℕ → ℕ → List ℕ) :
    (bb84_protocol aliceBits aliceBases bobBases coins sample).bob_results =
      bobResults aliceBits aliceBases bobBases coins := rfl

theorem bb84_sifted_positions_def (aliceBits aliceBases bobBases coins : List Bool)
    (sample : ℕ → ℕ → List ℕ) :
    (bb84_protocol aliceBits aliceBases bobBases coins sample).sifted_positions =
      keyPositions aliceBases bobBases := rfl

theorem bb84_sifted_alice_def (aliceBits aliceBases bobBases coins : List Bool)
    (sample : ℕ → ℕ → List ℕ) :
    (bb84_protocol aliceBits aliceBases bobBases coins sample).sifted_alice =
      (keyPositions aliceBases bobBases).map (fun i => aliceBits.getD i false) := rfl

theorem bb84_sifted_bob_def (aliceBits aliceBases bobBases coins : List Bool)
    (sample : ℕ → ℕ → List ℕ) :
    (bb84_protocol aliceBits aliceBases bobBases coins sample).sifted_bob =
      (keyPositions aliceBases bobBases).map
        (fun i => (bobResults aliceBits aliceBases bobBases coins).getD i false) := rfl

theorem bb84_revealed_indices_def (aliceBits aliceBases bobBases coins : List Bool)
    (sample : ℕ → ℕ → List ℕ) :
    (bb84_protocol aliceBits aliceBases bobBases coins sample).revealed_indices =
      (if 0 < (bb84_protocol aliceBits aliceBases bobBases coins sample).sifted_alice.length
       then sample
         (max 1 ((bb84_protocol aliceBits aliceBases bobBases coins sample).sifted_alice.length / 10))
         (bb84_protocol aliceBits aliceBases bobBases coins sample).sifted_alice.length
       else []) := rfl

theorem bb84_revealed_alice_def (aliceBits aliceBases bobBases coins : List Bool)
    (sample : ℕ → ℕ → List ℕ) :
    (bb84_protocol aliceBits aliceBases bobBases coins sample).revealed_alice =
      (bb84_protocol aliceBits aliceBases bobBases coins sample).revealed_indices.map
        (fun i => (bb84_protocol aliceBits aliceBases bobBases coins sample).sifted_alice.getD i false) := rfl

theorem bb84_revealed_bob_def (aliceBits aliceBases bobBases coins : List Bool)
    (sample : ℕ → ℕ → List ℕ) :
    (bb84_protocol aliceBits aliceBases bobBases coins sample).revealed_bob =
      (bb84_protocol aliceBits aliceBases bobBases coins sample).revealed_indices.map
        (fun i => (bb84_protocol aliceBits aliceBases bobBases coins sample).sifted_bob.getD i false) := rfl

theorem bb84_final_alice_key_def (aliceBits aliceBases bobBases coins : List Bool)
    (sample : ℕ → ℕ → List ℕ) :
    (bb84_protocol aliceBits aliceBases bobBases coins sample).final_alice_key =
      removeRevealed
        (bb84_protocol aliceBits aliceBases bobBases coins sample).revealed_indices
        (bb84_protocol aliceBits aliceBases bobBases coins sample).sifted_alice := rfl

theorem bb84_final_bob_key_def (aliceBits aliceBases bobBases coins : List Bool)
    (sample : ℕ → ℕ → List ℕ) :
    (bb84_protocol aliceBits aliceBases bobBases coins sample).final_bob_key =
      removeRevealed
        (bb84_protocol aliceBits aliceBases bobBases coins sample).revealed_indices
        (bb84_protocol aliceBits aliceBases bobBases coins sample).sifted_bob := rfl

theorem bb84_sifted_lengths (aliceBits aliceBases bobBases coins : List Bool)
    (sample : ℕ → ℕ → List ℕ) :
    (bb84_protocol aliceBits aliceBases bobBases coins sample).sifted_bob.length =
      (bb84_protocol aliceBits aliceBases bobBases coins sample).sifted_alice.length := by
  rw [bb84_sifted_alice_def, bb84_sifted_bob_def, List.length_map, List.length_map]

end ProtocolLemmas

section SiftLemmas

theorem keyPositions_mem (a b : List Bool) (j : ℕ) :
    j ∈ keyPositions a b ↔
      (j < min a.length b.length ∧ a.getD j false = b.getD j false) := by
  rw [keyPositions, keyPositionsAux_mem]
  constructor
  · rintro ⟨k, hk, rfl, hget⟩
    exact ⟨by omega, by simpa using hget⟩
  · rintro ⟨hj, hget⟩
    exact ⟨j, hj, by omega, hget⟩

theorem floor_tenth (n : ℕ) : Nat.floor ((1/10 : ℚ) * n) = n / 10 := by
  have h : (1/10 : ℚ) * n = (n : ℚ) / ((10 : ℕ) : ℚ) := by push_cast; ring
  rw [h]
  exact Nat.floor_div_nat (α := ℚ) n 10

end SiftLemmas

/-- Claim C2: in every protocol round where the sender's basis equals the
receiver's basis, the measured bit equals the sender's bit — every time,
not statistically — and the round circuit is deterministic in the sense of
the execution-oracle contract: its Born distribution puts probability 1 on
the sender's bit. -/
theorem bb84_basis_match_deterministic
    (aliceBits aliceBases bobBases coins : List Bool) (sample : ℕ → ℕ → List ℕ)
    (i : ℕ) (hi : i < aliceBits.length)
    (ha : aliceBases.length = aliceBits.length)
    (hb : bobBases.length = aliceBits.length)
    (hc : coins.length = aliceBits.length)
    (hmatch : aliceBases.getD i false = bobBases.getD i false) :
    (bb84_protocol aliceBits aliceBases bobBases coins sample).bob_results.getD i false =
      aliceBits.getD i false ∧
    probOf (roundState (aliceBits.getD i false) (aliceBases.getD i false)
        (bobBases.getD i false)) (aliceBits.getD i false) = Q2.ofRat 1 := by
  constructor
  · rw [bb84_bob_results_def,
      bobResults_getD aliceBits aliceBases bobBases coins i hi (by omega)
        (by omega) (by omega), hmatch]
    exact measuredBit_match _ _ _
  · rw [hmatch]
    exact probOf_match _ _

/-- Witness for C2 at a concrete one-round input with matching bases. -/
theorem bb84_basis_match_deterministic_witness :
    (bb84_protocol [true] [true] [true] [false] sampleRange).bob_results.getD 0 false =
      [true].getD 0 false ∧
    probOf (roundState ([true].getD 0 false) ([true].getD 0 false)
        ([true].getD 0 false)) ([true].getD 0 false) = Q2.ofRat 1 :=
  bb84_basis_match_deterministic [true] [true] [true] [false] sampleRange 0
    (by decide) rfl rfl rfl rfl

/-- Claim C7: in every round where the bases differ, the round circuit's
Born distribution is the fair coin — probability 1/2 for each outcome,
independent of the sender's bit (which appears only as an unused
parameter) — and the one-shot sample is exactly the injected fair coin. -/
theorem bb84_basis_mismatch_uniform (bit aBasis bBasis coin : Bool)
    (h : aBasis ≠ bBasis) :
    probOf (roundState bit aBasis bBasis) false = Q2.ofRat (1/2) ∧
    probOf (roundState bit aBasis bBasis) true = Q2.ofRat (1/2) ∧
    measuredBit bit aBasis bBasis coin = coin :=
  ⟨probOf_mismatch bit aBasis bBasis false h,
   probOf_mismatch bit aBasis bBasis true h,
   measuredBit_mismatch bit aBasis bBasis coin h⟩

/-- Witness for C7 at a concrete mismatched-basis round. -/
theorem bb84_basis_mismatch_uniform_witness :
    probOf (roundState true true false) false = Q2.ofRat (1/2) ∧
    probOf (roundState true true false) true = Q2.ofRat (1/2) ∧
    measuredBit true true false true = true :=
  bb84_basis_mismatch_uniform true true false true (by decide)

/-- Claim C5: when the sifted set is empty, disclosure yields an empty
disclosed set and empty revealed bit lists; the sampler is never
consulted, so there is no error for any sampler. -/
theorem bb84_empty_sift (aliceBits aliceBases bobBases coins : List Bool)
    (sample : ℕ → ℕ → List ℕ)
    (h : (bb84_protocol aliceBits aliceBases bobBases coins sample).sifted_alice = []) :
    (bb84_protocol aliceBits aliceBases bobBases coins sample).revealed_indices = [] ∧
    (bb84_protocol aliceBits aliceBases bobBases coins sample).revealed_alice = [] ∧
    (bb84_protocol aliceBits aliceBases bobBases coins sample).revealed_bob = [] := by
  have h0 : ¬ 0 <
      (bb84_protocol aliceBits aliceBases bobBases coins sample).sifted_alice.length := by
    rw [h]
    simp
  have hrev :
      (bb84_protocol aliceBits aliceBases bobBases coins sample).revealed_indices = [] := by
    rw [bb84_revealed_indices_def, if_neg h0]
  refine ⟨hrev, ?_, ?_⟩
  · rw [bb84_revealed_alice_def, hrev]
    rfl
  · rw [bb84_revealed_bob_def, hrev]
    rfl

/-- Witness for C5: one round, bases X vs Z, sifted set empty. -/
theorem bb84_empty_sift_witness :
    (bb84_protocol [true] [true] [false] [false] sampleRange).revealed_indices = [] ∧
    (bb84_protocol [true] [true] [false] [false] sampleRange).revealed_alice = [] ∧
    (bb84_protocol [true] [true] [false] [false] sampleRange).revealed_bob = [] :=
  bb84_empty_sift [true] [true] [false] [false] sampleRange (by decide)

/-- Claim C3: sifting keeps exactly the round indices at which the
sender's and receiver's bases agree (membership characterisation),
in strictly increasing — hence original — round order, and the sifted bit
lists are the original bits read off at those positions, in the same
order. -/
theorem bb84_sifting_exact (aliceBits aliceBases bobBases coins : List Bool)
    (sample : ℕ → ℕ → List ℕ) :
    (∀ i, i ∈ (bb84_protocol aliceBits aliceBases bobBases coins sample).sifted_positions ↔
       (i < min aliceBases.length bobBases.length ∧
        aliceBases.getD i false = bobBases.getD i false)) ∧
    (bb84_protocol aliceBits aliceBases bobBases coins sample).sifted_positions.Pairwise (· < ·) ∧
    (bb84_protocol aliceBits aliceBases bobBases coins sample).sifted_alice.length =
      (bb84_protocol aliceBits aliceBases bobBases coins sample).sifted_positions.length ∧
    (bb84_protocol aliceBits aliceBases bobBases coins sample).sifted_bob.length =
      (bb84_protocol aliceBits aliceBases bobBases coins sample).sifted_positions.length ∧
    ∀ j, j < (bb84_protocol aliceBits aliceBases bobBases coins sample).sifted_positions.length →
      (bb84_protocol aliceBits aliceBases bobBases coins sample).sifted_alice.getD j false =
        aliceBits.getD
          ((bb84_protocol aliceBits aliceBases bobBases coins sample).sifted_positions.getD j 0)
          false ∧
      (bb84_protocol aliceBits aliceBases bobBases coins sample).sifted_bob.getD j false =
        (bb84_protocol aliceBits aliceBases bobBases coins sample).bob_results.getD
          ((bb84_protocol aliceBits aliceBases bobBases coins sample).sifted_positions.getD j 0)
          false := by
  rw [bb84_sifted_positions_def, bb84_sifted_alice_def, bb84_sifted_bob_def,
    bb84_bob_results_def]
  refine ⟨fun i => keyPositions_mem aliceBases bobBases i,
    keyPositionsAux_pairwise aliceBases bobBases 0,
    List.length_map _ _, List.length_map _ _, ?_⟩
  intro j hj
  exact ⟨getD_map _ _ _ j hj, getD_map _ _ _ j hj⟩

/-- Witness for C3: instantiation at a concrete two-round input, with the
membership property read off at index 1 and the indexing property at
sifted position 0. -/
theorem bb84_sifting_exact_witness :
    ((1 ∈ (bb84_protocol [true, false] [false, true] [true, true] [false, false]
        sampleRange).sifted_positions ↔
      (1 < min 2 2 ∧
       [false, true].getD 1 false = [true, true].getD 1 false)) ∧
     (bb84_protocol [true, false] [false, true] [true, true] [false, false]
        sampleRange).sifted_positions.Pairwise (· < ·)) ∧
    ((bb84_protocol [true, false] [false, true] [true, true] [false, false]
        sampleRange).sifted_alice.getD 0 false =
      [true, false].getD
        ((bb84_protocol [true, false] [false, true] [true, true] [false, false]
          sampleRange).sifted_positions.getD 0 0) false) := by
  have h := bb84_sifting_exact [true, false] [false, true] [true, true]
    [false, false] sampleRange
  refine ⟨⟨by simpa using h.1 1, h.2.1⟩, ?_⟩
  exact (h.2.2.2.2 0 (by decide)).1

/-- Claim C1, counterexample to the literal subset reading: with two
rounds whose bases agree only at round 1, the sifted positions are `[1]`
while the disclosed index list is `[0]` (indices into the sifted
sequence), so the disclosed indices are not a subset of the sifted
positions. -/
theorem bb84_disclosed_subset_counterexample :
    ¬ ((bb84_protocol [true, true] [false, true] [true, true] [false, false]
          sampleRange).revealed_indices ⊆
       (bb84_protocol [true, true] [false, true] [true, true] [false, false]
          sampleRange).sifted_positions) := by
  intro h
  have h0 : 0 ∈ (bb84_protocol [true, true] [false, true] [true, true]
      [false, false] sampleRange).revealed_indices := by decide
  have h1 := h h0
  revert h1
  decide

/-- Claim C1 (amended): the disclosed indices are positions into the
sifted sequence (each below its length); the final keys have length
`len(sifted) - len(disclosed)`; and each final key is the sifted bit list
with exactly the disclosed positions removed, in original order (a
sublist, equal to reading the undisclosed positions off in order). -/
theorem bb84_key_accounting (aliceBits aliceBases bobBases coins : List Bool)
    (sample : ℕ → ℕ → List ℕ) (hs : SampleOK sample) :
    (∀ i ∈ (bb84_protocol aliceBits aliceBases bobBases coins sample).revealed_indices,
       i < (bb84_protocol aliceBits aliceBases bobBases coins sample).sifted_alice.length) ∧
    (bb84_protocol aliceBits aliceBases bobBases coins sample).final_alice_key.length =
      (bb84_protocol aliceBits aliceBases bobBases coins sample).sifted_alice.length -
        (bb84_protocol aliceBits aliceBases bobBases coins sample).revealed_indices.length ∧
    (bb84_protocol aliceBits aliceBases bobBases coins sample).final_bob_key.length =
      (bb84_protocol aliceBits aliceBases bobBases coins sample).sifted_bob.length -
        (bb84_protocol aliceBits aliceBases bobBases coins sample).revealed_indices.length ∧
    (bb84_protocol aliceBits aliceBases bobBases coins sample).final_alice_key.Sublist
      (bb84_protocol aliceBits aliceBases bobBases coins sample).sifted_alice ∧
    (bb84_protocol aliceBits aliceBases bobBases coins sample).final_bob_key.Sublist
      (bb84_protocol aliceBits aliceBases bobBases coins sample).sifted_bob ∧
    (bb84_protocol aliceBits aliceBases bobBases coins sample).final_alice_key =
      ((List.range (bb84_protocol aliceBits aliceBases bobBases coins sample).sifted_alice.length).filter
        (fun j => ¬ j ∈ (bb84_protocol aliceBits aliceBases bobBases coins sample).revealed_indices)).map
        (fun j => (bb84_protocol aliceBits aliceBases bobBases coins sample).sifted_alice.getD j false) ∧
    (bb84_protocol aliceBits aliceBases bobBases coins sample).final_bob_key =
      ((List.range (bb84_protocol aliceBits aliceBases bobBases coins sample).sifted_bob.length).filter
        (fun j => ¬ j ∈ (bb84_protocol aliceBits aliceBases bobBases coins sample).revealed_indices)).map
        (fun j => (bb84_protocol aliceBits aliceBases bobBases coins sample).sifted_bob.getD j false) := by
  have hkey : (bb84_protocol aliceBits aliceBases bobBases coins sample).revealed_indices.Nodup ∧
      ∀ i ∈ (bb84_protocol aliceBits aliceBases bobBases coins sample).revealed_indices,
        i < (bb84_protocol aliceBits aliceBases bobBases coins sample).sifted_alice.length := by
    rw [bb84_revealed_indices_def]
    by_cases h0 : 0 <
        (bb84_protocol aliceBits aliceBases bobBases coins sample).sifted_alice.length
    · rw [if_pos h0]
      have hk : max 1
          ((bb84_protocol aliceBits aliceBases bobBases coins sample).sifted_alice.length / 10) ≤
          (bb84_protocol aliceBits aliceBases bobBases coins sample).sifted_alice.length := by
        omega
      obtain ⟨-, h2, h3⟩ := hs _ _ hk
      exact ⟨h2, h3⟩
    · rw [if_neg h0]
      exact ⟨List.nodup_nil, by simp⟩
  obtain ⟨hnd, hbound⟩ := hkey
  have hbound' : ∀ i ∈ (bb84_protocol aliceBits aliceBases bobBases coins sample).revealed_indices,
      i < (bb84_protocol aliceBits aliceBases bobBases coins sample).sifted_bob.length := by
    rw [bb84_sifted_lengths]
    exact hbound
  refine ⟨hbound, ?_, ?_, ?_, ?_, ?_, ?_⟩
  · rw [bb84_final_alice_key_def, removeRevealed_eq, List.length_map,
      length_filter_not_mem _ _ hnd hbound]
  · rw [bb84_final_bob_key_def, removeRevealed_eq, List.length_map,
      length_filter_not_mem _ _ hnd hbound']
  · rw [bb84_final_alice_key_def, removeRevealed]
    exact removeRevealedAux_sublist _ _ _
  · rw [bb84_final_bob_key_def, removeRevealed]
    exact removeRevealedAux_sublist _ _ _
  · rw [bb84_final_alice_key_def, removeRevealed_eq]
  · rw [bb84_final_bob_key_def, removeRevealed_eq]

/-- Witness for the amended C1 at a concrete two-round input (both bases
agree, one bit disclosed out of two sifted). -/
theorem bb84_key_accounting_witness :
    (∀ i ∈ (bb84_protocol [true, false] [false, true] [false, true] [false, false]
        sampleRange).revealed_indices,
      i < (bb84_protocol [true, false] [false, true] [false, true] [false, false]
        sampleRange).sifted_alice.length) ∧
    (bb84_protocol [true, false] [false, true] [false, true] [false, false]
        sampleRange).final_alice_key.length =
      (bb84_protocol [true, false] [false, true] [false, true] [false, false]
        sampleRange).sifted_alice.length -
      (bb84_protocol [true, false] [false, true] [false, true] [false, false]
        sampleRange).revealed_indices.length ∧
    (bb84_protocol [true, false] [false, true] [false, true] [false, false]
        sampleRange).final_alice_key.Sublist
      (bb84_protocol [true, false] [false, true] [false, true] [false, false]
        sampleRange).sifted_alice :=
  have h := bb84_key_accounting [true, false] [false, true] [false, true]
    [false, false] sampleRange sampleRange_ok
  ⟨h.1, h.2.1, h.2.2.2.1⟩

/-- Claim C4: whenever the sifted set is non-empty, the protocol
discloses exactly `max 1 ⌊0.1 * len(sifted)⌋` distinct indices (the
source hard-wires `disclose_fraction = 0.1` as `len(sifted) // 10`), all
drawn without replacement from the positions of the sifted sequence. -/
theorem bb84_disclosure_count (aliceBits aliceBases bobBases coins : List Bool)
    (sample : ℕ → ℕ → List ℕ) (hs : SampleOK sample)
    (h0 : 0 < (bb84_protocol aliceBits aliceBases bobBases coins sample).sifted_alice.length) :
    (bb84_protocol aliceBits aliceBases bobBases coins sample).revealed_indices.length =
      max 1 (Nat.floor ((1/10 : ℚ) *
        (bb84_protocol aliceBits aliceBases bobBases coins sample).sifted_alice.length)) ∧
    (bb84_protocol aliceBits aliceBases bobBases coins sample).revealed_indices.Nodup ∧
    ∀ i ∈ (bb84_protocol aliceBits aliceBases bobBases coins sample).revealed_indices,
      i < (bb84_protocol aliceBits aliceBases bobBases coins sample).sifted_alice.length := by
  rw [bb84_revealed_indices_def, if_pos h0]
  have hk : max 1
      ((bb84_protocol aliceBits aliceBases bobBases coins sample).sifted_alice.length / 10) ≤
      (bb84_protocol aliceBits aliceBases bobBases coins sample).sifted_alice.length := by
    omega
  obtain ⟨h1, h2, h3⟩ := hs _ _ hk
  rw [floor_tenth]
  exact ⟨h1, h2, h3⟩

/-- Witness for C4 at the spec's example scale: 100 rounds with all bases
matching give 100 sifted bits and a disclosed set of exactly 10 distinct
indices. -/
theorem bb84_disclosure_count_witness :
    0 < (bb84_protocol (List.replicate 100 false) (List.replicate 100 false)
        (List.replicate 100 false) (List.replicate 100 false) sampleRange).sifted_alice.length ∧
    (bb84_protocol (List.replicate 100 false) (List.replicate 100 false)
        (List.replicate 100 false) (List.replicate 100 false) sampleRange).revealed_indices.length =
      max 1 (Nat.floor ((1/10 : ℚ) *
        (bb84_protocol (List.replicate 100 false) (List.replicate 100 false)
          (List.replicate 100 false) (List.replicate 100 false) sampleRange).sifted_alice.length)) ∧
    (bb84_protocol (List.replicate 100 false) (List.replicate 100 false)
        (List.replicate 100 false) (List.replicate 100 false) sampleRange).sifted_alice.length = 100 ∧
    (bb84_protocol (List.replicate 100 false) (List.replicate 100 false)
        (List.replicate 100 false) (List.replicate 100 false) sampleRange).revealed_indices.length = 10 := by
  have h0 : 0 < (bb84_protocol (List.replicate 100 false) (List.replicate 100 false)
      (List.replicate 100 false) (List.replicate 100 false) sampleRange).sifted_alice.length := by
    decide
  exact ⟨h0,
    (bb84_disclosure_count (List.replicate 100 false) (List.replicate 100 false)
      (List.replicate 100 false) (List.replicate 100 false) sampleRange
      sampleRange_ok h0).1,
    by decide, by decide⟩

/-- Claim C8: the Grover entry points fail fast on invalid input, with no
retry: `grover_search_demo` returns an error exactly when `n_qubits` is
not 1 or 2 (in particular whenever `n_qubits > 4`, where it raises the
ValueError first) or `target_index` lies outside `[0, 2 ** n_qubits)`,
and `run_grover` returns an error exactly when `n_qubits` is outside
`[1, 4]`. -/
theorem grover_fail_fast :
    (∀ n t : ℤ, (∃ e, grover_search_demo n t = Except.error e) ↔
       (¬(n = 1 ∨ n = 2) ∨ t < 0 ∨ 2 ^ n.toNat ≤ t)) ∧
    (∀ n t : ℤ, 4 < n →
       grover_search_demo n t =
         Except.error (DemoError.valueError "n_qubits must be <= 4 for this demo.")) ∧
    (∀ n : ℤ, (∃ e, run_grover n = Except.error e) ↔ (n < 1 ∨ 4 < n)) := by
  refine ⟨?_, ?_, ?_⟩
  · intro n t
    rw [grover_search_demo]
    by_cases h2 : n = 1 ∨ n = 2
    · have h1 : ¬ n > MAX_GROVER_QUBITS := by
        unfold MAX_GROVER_QUBITS
        rcases h2 with rfl | rfl <;> omega
      rw [if_neg h1, if_neg (not_not_intro h2)]
      by_cases h3 : t < 0 ∨ t ≥ 2 ^ n.toNat
      · rw [if_pos h3]
        simp only [Except.error.injEq, exists_eq', true_iff]
        rcases h3 with h3 | h3
        · exact Or.inr (Or.inl h3)
        · exact Or.inr (Or.inr h3)
      · rw [if_neg h3]
        simp only [reduceCtorEq, exists_false, false_iff, not_or]
        push_neg at h3
        refine ⟨?_, by omega, by omega⟩
        rw [not_and_or, not_not, not_not]
        exact h2
    · by_cases h1 : n > MAX_GROVER_QUBITS
      · rw [if_pos h1]
        simp only [Except.error.injEq, exists_eq', true_iff]
        exact Or.inl h2
      · rw [if_neg h1, if_pos (by simpa using h2)]
        simp only [Except.error.injEq, exists_eq', true_iff]
        exact Or.inl h2
  · intro n t hn
    rw [grover_search_demo,
      if_pos (show n > MAX_GROVER_QUBITS by unfold MAX_GROVER_QUBITS; omega)]
  · intro n
    rw [run_grover]
    by_cases h1 : n < 1 ∨ n > MAX_QUBITS
    · rw [if_pos h1]
      simp only [Except.error.injEq, exists_eq', true_iff]
      unfold MAX_QUBITS at h1
      omega
    · rw [if_neg h1]
      simp only [reduceCtorEq, exists_false, false_iff]
      unfold MAX_QUBITS at h1
      omega

/-- Witness for C8: concrete invalid and valid inputs on both entry
points. -/
theorem grover_fail_fast_witness :
    (∃ e, grover_search_demo 3 0 = Except.error e) ∧
    grover_search_demo 5 0 =
      Except.error (DemoError.valueError "n_qubits must be <= 4 for this demo.") ∧
    (∃ e, grover_search_demo 2 4 = Except.error e) ∧
    ¬ (∃ e, grover_search_demo 2 3 = Except.error e) ∧
    (∃ e, run_grover 0 = Except.error e) ∧
    ¬ (∃ e, run_grover 4 = Except.error e) :=
  ⟨(grover_fail_fast.1 3 0).mpr (by decide),
   grover_fail_fast.2.1 5 0 (by decide),
   (grover_fail_fast.1 2 4).mpr (by decide),
   fun h => by
     have := (grover_fail_fast.1 2 3).mp h
     revert this
     decide,
   (grover_fail_fast.2.2 0).mpr (by decide),
   fun h => by
     have := (grover_fail_fast.2.2 4).mp h
     revert this
     decide⟩

/-- XOR-ing twice with the same cycled key stream is the identity. -/
theorem xorStreamAux_involution (key : List ℕ) :
    ∀ (data : List ℕ) (i : ℕ),
      xorStreamAux key i (xorStreamAux key i data) = data
  | [], _ => rfl
  | d :: ds, i => by
      have ih := xorStreamAux_involution key ds (i + 1)
      simp only [xorStreamAux, ih, List.cons.injEq, and_true]
      rw [Nat.xor_assoc, Nat.xor_self, Nat.xor_zero]

/-- Claim C10: the XOR stream cipher round-trips: decrypting the
encryption of any plaintext with the same bit list returns the plaintext,
for any key-derivation function and any base64 pair with
`b64d ∘ b64e = id` (hashlib's SHA-256 and Python's base64 codec are
injected; the plaintext is handled as its UTF-8 bytes, which the claim
notes are valid by construction). -/
theorem encrypt_decrypt_roundtrip {T : Type} (sha : List Bool → List ℕ)
    (b64e : List ℕ → T) (b64d : T → List ℕ)
    (h : ∀ bs, b64d (b64e bs) = bs) (bits : List Bool) (plaintext : List ℕ) :
    decrypt_with_bits sha b64d bits (encrypt_with_bits sha b64e bits plaintext) =
      plaintext := by
  rw [decrypt_with_bits, encrypt_with_bits, h, xor_stream, xor_stream]
  exact xorStreamAux_involution (sha bits) plaintext 0

/-- Witness for C10 with the identity base64 pair, a constant 32-byte
key function, and the UTF-8 bytes of "hi". -/
theorem encrypt_decrypt_roundtrip_witness :
    decrypt_with_bits (fun _ => List.replicate 32 7) (fun bs => bs) [true]
      (encrypt_with_bits (fun _ => List.replicate 32 7) (fun bs => bs) [true]
        [104, 105]) = [104, 105] :=
  encrypt_decrypt_roundtrip (fun _ => List.replicate 32 7) (fun bs => bs)
    (fun bs => bs) (fun _ => rfl) [true] [104, 105]

section CodecLemmas

theorem packLoop_add8 :
    ∀ (l : List Bool) (i b : ℕ), packLoop (i + 8) b l = packLoop i b l
  | [], _, _ => rfl
  | bit :: rest, i, b => by
      simp only [packLoop]
      have hmod : (i + 8 + 1) % 8 = (i + 1) % 8 := by omega
      rw [hmod]
      by_cases hc : (i + 1) % 8 = 0
      · rw [if_pos hc, if_pos hc]
        have hidx : i + 8 + 1 = (i + 1) + 8 := by omega
        rw [hidx, packLoop_add8 rest (i + 1) 0]
      · rw [if_neg hc, if_neg hc]
        have hidx : i + 8 + 1 = (i + 1) + 8 := by omega
        rw [hidx, packLoop_add8 rest (i + 1) (b * 2 + if bit then 1 else 0)]

theorem packLoop_small :
    ∀ (l : List Bool) (i b : ℕ), i % 8 + l.length < 8 →
      packLoop i b l =
        ([], l.foldl (fun acc bit => acc * 2 + (if bit then 1 else 0)) b)
  | [], i, b => by
      intro _
      rfl
  | bit :: rest, i, b => by
      intro h
      simp only [packLoop, List.length_cons] at h ⊢
      have hc : ¬ (i + 1) % 8 = 0 := by omega
      rw [if_neg hc]
      have hrest : (i + 1) % 8 + rest.length < 8 := by omega
      rw [packLoop_small rest (i + 1) (b * 2 + if bit then 1 else 0) hrest]
      rfl

theorem packLoop_chunk (c rest : List Bool) (hc : c.length = 8) :
    packLoop 0 0 (c ++ rest) =
      (byteOfBits c :: (packLoop 0 0 rest).1, (packLoop 0 0 rest).2) := by
  match c, hc with
  | [b0, b1, b2, b3, b4, b5, b6, b7], _ =>
    have h8 : packLoop 8 0 rest = packLoop 0 0 rest := packLoop_add8 rest 0 0
    simp only [List.cons_append, List.nil_append, packLoop, byteOfBits,
      List.foldl]
    norm_num [h8]

end CodecLemmas

section CodecLemmasTwo

theorem chunks8Aux_congr :
    ∀ (f1 f2 : ℕ) (l : List Bool), l.length ≤ f1 → l.length ≤ f2 →
      chunks8Aux f1 l = chunks8Aux f2 l
  | 0, f2, l => by
      intro h1 _
      have : l = [] := List.length_eq_zero.mp (by omega)
      subst this
      cases f2 <;> rfl
  | f1 + 1, f2, [] => by
      intro _ _
      cases f2 <;> rfl
  | f1 + 1, f2, x :: xs => by
      intro h1 h2
      cases f2 with
      | zero =>
          simp at h2
      | succ g2 =>
          simp only [chunks8Aux]
          rw [chunks8Aux_congr f1 g2 ((x :: xs).drop 8)
            (by
              simp only [List.length_drop, List.length_cons] at h1 ⊢
              omega)
            (by
              simp only [List.length_drop, List.length_cons] at h2 ⊢
              omega)]

theorem chunks8_nil : chunks8 [] = [] := rfl

theorem chunks8_cons (l : List Bool) (h : l ≠ []) :
    chunks8 l = l.take 8 :: chunks8 (l.drop 8) := by
  obtain ⟨x, xs, rfl⟩ := List.exists_cons_of_ne_nil h
  rw [chunks8, chunks8, List.length_cons]
  simp only [chunks8Aux]
  rw [chunks8Aux_congr xs.length ((x :: xs).drop 8).length ((x :: xs).drop 8)
    (by simp) (by simp)]

theorem byteOfBits_append_single (m : List Bool) (x : Bool) :
    byteOfBits (m ++ [x]) = byteOfBits m * 2 + (if x then 1 else 0) := by
  simp [byteOfBits, List.foldl_append]

theorem byteOfBits_append_replicate (l : List Bool) :
    ∀ k : ℕ, byteOfBits (l ++ List.replicate k false) = byteOfBits l * 2 ^ k
  | 0 => by simp
  | k + 1 => by
      rw [List.replicate_succ' (n := k), ← List.append_assoc,
        byteOfBits_append_single, byteOfBits_append_replicate l k]
      simp [pow_succ]
      ring

theorem bits_to_bytes_nil : bits_to_bytes [] = [] := by
  rw [bits_to_bytes, chunks8_nil]
  rfl

theorem bits_to_bytes_small (bits : List Bool) (h0 : bits ≠ [])
    (h8 : bits.length ≤ 8) :
    bits_to_bytes bits =
      [byteOfBits (bits ++ List.replicate (8 - bits.length) false)] := by
  rw [bits_to_bytes, chunks8_cons bits h0, List.take_of_length_le h8,
    List.drop_eq_nil_of_le h8, chunks8_nil]
  rfl

theorem bits_to_bytes_chunk (c rest : List Bool) (hc : c.length = 8) :
    bits_to_bytes (c ++ rest) = byteOfBits c :: bits_to_bytes rest := by
  have hne : c ++ rest ≠ [] := by
    intro h
    have := congrArg List.length h
    simp [hc] at this
  rw [bits_to_bytes, chunks8_cons (c ++ rest) hne, List.take_left' hc,
    List.drop_left' hc, List.map_cons, hc]
  simp [bits_to_bytes]

theorem bits_to_hex_chunk (c rest : List Bool) (hc : c.length = 8) :
    bits_to_hex (c ++ rest) = byteToHex (byteOfBits c) ++ bits_to_hex rest := by
  simp only [bits_to_hex]
  rw [packLoop_chunk c rest hc]
  have hrem : (8 - (c ++ rest).length % 8) % 8 = (8 - rest.length % 8) % 8 := by
    rw [List.length_append, hc]
    omega
  rw [hrem]
  by_cases h : (8 - rest.length % 8) % 8 ≠ 0
  · rw [if_pos h, if_pos h]
    simp [bytesToHex]
  · rw [if_neg h, if_neg h]
    simp [bytesToHex]

theorem bits_to_hex_str_chunk (c rest : List Bool) (hc : c.length = 8) :
    bits_to_hex_str (c ++ rest) =
      byteToHex (byteOfBits c) ++ bits_to_hex_str rest := by
  simp only [bits_to_hex_str]
  have hpad : (8 - (c ++ rest).length % 8) % 8 = (8 - rest.length % 8) % 8 := by
    rw [List.length_append, hc]
    omega
  rw [hpad, List.append_assoc, packLoop_chunk c _ hc]
  simp [bytesToHex]

theorem bits_to_hex_eq_bytes (bits : List Bool) :
    bits_to_hex bits = bytesToHex (bits_to_bytes bits) := by
  by_cases h8 : bits.length < 8
  · by_cases hnil : bits = []
    · subst hnil
      rw [bits_to_bytes_nil]
      rfl
    · have hpos : 0 < bits.length := List.length_pos.mpr hnil
      have hp := packLoop_small bits 0 0 (by simpa using h8)
      have hrem : (8 - bits.length % 8) % 8 = 8 - bits.length := by omega
      simp only [bits_to_hex]
      rw [hp, hrem, if_pos (by omega : ¬ (8 - bits.length = 0))]
      rw [bits_to_bytes_small bits hnil (by omega),
        byteOfBits_append_replicate]
      simp [bytesToHex, byteOfBits]
  · have hc : (bits.take 8).length = 8 := by
      rw [List.length_take]
      omega
    have ih := bits_to_hex_eq_bytes (bits.drop 8)
    conv_lhs => rw [← List.take_append_drop 8 bits]
    conv_rhs => rw [← List.take_append_drop 8 bits]
    rw [bits_to_hex_chunk _ _ hc, bits_to_bytes_chunk _ _ hc, ih]
    simp [bytesToHex]
termination_by bits.length
decreasing_by
  simp only [List.length_drop]
  omega

theorem bits_to_hex_str_eq_bytes (bits : List Bool) :
    bits_to_hex_str bits = bytesToHex (bits_to_bytes bits) := by
  by_cases h8 : bits.length < 8
  · by_cases hnil : bits = []
    · subst hnil
      rw [bits_to_bytes_nil]
      rfl
    · have hpos : 0 < bits.length := List.length_pos.mpr hnil
      have hlenp : (bits ++ List.replicate ((8 - bits.length % 8) % 8) false).length = 8 := by
        rw [List.length_append, List.length_replicate]
        omega
      simp only [bits_to_hex_str]
      rw [show bits ++ List.replicate ((8 - bits.length % 8) % 8) false =
            (bits ++ List.replicate ((8 - bits.length % 8) % 8) false) ++ [] by simp,
        packLoop_chunk _ _ hlenp]
      rw [bits_to_bytes_small bits hnil (by omega)]
      have hr : (8 - bits.length % 8) % 8 = 8 - bits.length := by omega
      rw [hr]
      rfl
  · have hc : (bits.take 8).length = 8 := by
      rw [List.length_take]
      omega
    have ih := bits_to_hex_str_eq_bytes (bits.drop 8)
    conv_lhs => rw [← List.take_append_drop 8 bits]
    conv_rhs => rw [← List.take_append_drop 8 bits]
    rw [bits_to_hex_str_chunk _ _ hc, bits_to_bytes_chunk _ _ hc, ih]
    simp [bytesToHex]
termination_by bits.length
decreasing_by
  simp only [List.length_drop]
  omega

theorem pack_bits_to_bytes_spec_eq (bits : List Bool) :
    pack_bits_to_bytes_spec bits = bits_to_bytes bits := by
  by_cases h8 : bits.length < 8
  · by_cases hnil : bits = []
    · subst hnil
      rw [pack_bits_to_bytes_spec, bits_to_bytes_nil]
      simp [chunks8_nil]
    · have hpos : 0 < bits.length := List.length_pos.mpr hnil
      have hr : (8 - bits.length % 8) % 8 = 8 - bits.length := by omega
      have hlenp : (bits ++ List.replicate (8 - bits.length) false).length = 8 := by
        rw [List.length_append, List.length_replicate]
        omega
      have hnep : bits ++ List.replicate (8 - bits.length) false ≠ [] := by
        intro h
        have := congrArg List.length h
        rw [hlenp] at this
        simp at this
      simp only [pack_bits_to_bytes_spec]
      rw [hr, chunks8_cons _ hnep, List.take_of_length_le (by omega),
        List.drop_eq_nil_of_le (by omega), chunks8_nil,
        bits_to_bytes_small bits hnil (by omega)]
      rfl
  · have hc : (bits.take 8).length = 8 := by
      rw [List.length_take]
      omega
    have ih := pack_bits_to_bytes_spec_eq (bits.drop 8)
    conv_lhs => rw [← List.take_append_drop 8 bits]
    conv_rhs => rw [← List.take_append_drop 8 bits]
    rw [bits_to_bytes_chunk _ _ hc]
    simp only [pack_bits_to_bytes_spec] at ih ⊢
    have hpad : (8 - (bits.take 8 ++ bits.drop 8).length % 8) % 8 =
        (8 - (bits.drop 8).length % 8) % 8 := by
      rw [List.length_append, hc]
      omega
    rw [hpad, List.append_assoc,
      chunks8_cons _ (by
        intro h
        have := congrArg List.length h
        rw [List.length_append, hc] at this
        simp at this),
      List.take_left' hc, List.drop_left' hc, List.map_cons, ih]
termination_by bits.length
decreasing_by
  simp only [List.length_drop]
  omega

end CodecLemmasTwo

section ByteBounds

theorem foldl_bits_lt :
    ∀ (l : List Bool) (acc : ℕ),
      l.foldl (fun a bit => a * 2 + (if bit then 1 else 0)) acc <
        (acc + 1) * 2 ^ l.length
  | [], acc => by simp
  | bit :: rest, acc => by
      have ih := foldl_bits_lt rest (acc * 2 + if bit then 1 else 0)
      simp only [List.foldl_cons, List.length_cons]
      refine lt_of_lt_of_le ih ?_
      have h2 : acc * 2 + (if bit then 1 else 0) + 1 ≤ (acc + 1) * 2 := by
        by_cases hb : bit <;> simp [hb] <;> omega
      calc (acc * 2 + (if bit then 1 else 0) + 1) * 2 ^ rest.length
          ≤ ((acc + 1) * 2) * 2 ^ rest.length := Nat.mul_le_mul_right _ h2
        _ = (acc + 1) * 2 ^ (rest.length + 1) := by ring

theorem byteOfBits_lt (l : List Bool) (h : l.length ≤ 8) :
    byteOfBits l < 256 := by
  have hlt := foldl_bits_lt l 0
  have hle : (2:ℕ) ^ l.length ≤ 2 ^ 8 := Nat.pow_le_pow_right (by omega) h
  have h256 : (2:ℕ) ^ 8 = 256 := by norm_num
  rw [byteOfBits]
  omega

theorem chunks8_length_le (l : List Bool) : ∀ c ∈ chunks8 l, c.length ≤ 8 := by
  by_cases hnil : l = []
  · subst hnil
    rw [chunks8_nil]
    simp
  · rw [chunks8_cons l hnil]
    intro c hc
    rcases List.mem_cons.mp hc with rfl | hc'
    · rw [List.length_take]
      omega
    · exact chunks8_length_le (l.drop 8) c hc'
termination_by l.length
decreasing_by
  simp only [List.length_drop]
  have := List.length_pos.mpr hnil
  omega

theorem bits_to_bytes_lt (bits : List Bool) :
    ∀ b ∈ bits_to_bytes bits, b < 256 := by
  intro b hb
  rw [bits_to_bytes] at hb
  obtain ⟨c, hc, rfl⟩ := List.mem_map.mp hb
  refine byteOfBits_lt _ ?_
  rw [List.length_append, List.length_replicate]
  have := chunks8_length_le bits c hc
  omega

set_option maxRecDepth 4096 in
theorem byteToHex_two_hex_digits :
    ∀ b < 256, ((byteToHex b).length = 2 ∧
      ∀ c ∈ (byteToHex b).data, c ∈ "0123456789abcdef".data) := by
  decide

theorem bytesToHex_length :
    ∀ (bs : List ℕ), (∀ b ∈ bs, b < 256) →
      (bytesToHex bs).length = 2 * bs.length
  | [], _ => rfl
  | b :: bs, h => by
      have hb := (byteToHex_two_hex_digits b (h b (by simp))).1
      have ih := bytesToHex_length bs (fun x hx => h x (by simp [hx]))
      simp only [bytesToHex, String.length_append, hb, ih, List.length_cons]
      ring

theorem bytesToHex_chars :
    ∀ (bs : List ℕ), (∀ b ∈ bs, b < 256) →
      ∀ c ∈ (bytesToHex bs).data, c ∈ "0123456789abcdef".data
  | [], _ => by simp [bytesToHex]
  | b :: bs, h => by
      intro c hc
      have ih := bytesToHex_chars bs (fun x hx => h x (by simp [hx]))
      simp only [bytesToHex, String.data_append] at hc
      rcases List.mem_append.mp hc with hc' | hc'
      · exact (byteToHex_two_hex_digits b (h b (by simp))).2 c hc'
      · exact ih c hc'

end ByteBounds

/-- Claim C6: the bit/byte codec consumes bits 8 at a time MSB-first and
zero-pads an incomplete final group on the right: `bits_to_hex` renders
exactly the spec-modelled `pack_bits_to_bytes` (chunk the right-padded bit
list into groups of 8, MSB-first value of each group) as lowercase hex,
two characters per byte (every byte is < 256, the output has two
characters per byte drawn from the lowercase hex alphabet), and the
spec's examples hold: `[1,0,1,0,1,0,1,0] ↦ "aa"` (the byte `0xAA`) and
`[1,1] ↦ "c0"` (the byte `0xC0`). -/
theorem codec_matches_spec :
    (∀ bits : List Bool,
       bits_to_hex bits = bytesToHex (pack_bits_to_bytes_spec bits)) ∧
    (∀ bits : List Bool, ∀ b ∈ pack_bits_to_bytes_spec bits, b < 256) ∧
    (∀ bits : List Bool,
       (bits_to_hex bits).length = 2 * (pack_bits_to_bytes_spec bits).length) ∧
    (∀ bits : List Bool, ∀ c ∈ (bits_to_hex bits).data,
       c ∈ "0123456789abcdef".data) ∧
    bits_to_hex [true, false, true, false, true, false, true, false] = "aa" ∧
    bits_to_hex [true, true] = "c0" ∧
    pack_bits_to_bytes_spec [true, false, true, false, true, false, true, false] = [170] ∧
    pack_bits_to_bytes_spec [true, true] = [192] := by
  refine ⟨?_, ?_, ?_, ?_, by decide, by decide, by decide, by decide⟩
  · intro bits
    rw [pack_bits_to_bytes_spec_eq]
    exact bits_to_hex_eq_bytes bits
  · intro bits b hb
    rw [pack_bits_to_bytes_spec_eq] at hb
    exact bits_to_bytes_lt bits b hb
  · intro bits
    rw [pack_bits_to_bytes_spec_eq, bits_to_hex_eq_bytes]
    exact bytesToHex_length _ (bits_to_bytes_lt bits)
  · intro bits c hc
    rw [bits_to_hex_eq_bytes] at hc
    exact bytesToHex_chars _ (bits_to_bytes_lt bits) c hc

/-- Witness for C6 at the spec's `[1,1]` example. -/
theorem codec_matches_spec_witness :
    bits_to_hex [true, true] = bytesToHex (pack_bits_to_bytes_spec [true, true]) ∧
    (192 : ℕ) < 256 ∧
    (bits_to_hex [true, true]).length = 2 * (pack_bits_to_bytes_spec [true, true]).length ∧
    'c' ∈ "0123456789abcdef".data :=
  ⟨codec_matches_spec.1 [true, true],
   codec_matches_spec.2.1 [true, true] 192 (by decide),
   codec_matches_spec.2.2.1 [true, true],
   codec_matches_spec.2.2.2.1 [true, true] 'c' (by decide)⟩

/-- Claim C9: the three codec implementations agree on every bit list:
`bits_to_hex` (bb84_demo), `bits_to_hex_str` (quantum_password_demo) and
the hex rendering of `bits_to_bytes` (quantum_rng) produce the same
lowercase hex string. -/
theorem codecs_agree (bits : List Bool) :
    bits_to_hex bits = bits_to_hex_str bits ∧
    bits_to_hex bits = bytesToHex (bits_to_bytes bits) :=
  ⟨(bits_to_hex_eq_bytes bits).trans (bits_to_hex_str_eq_bytes bits).symm,
   bits_to_hex_eq_bytes bits⟩
